import Mathlib

/-!
Shallow embedding of the data-wrangling operations performed by the notebook
`01_LectureNotes/02_DataFrames.ipynb`.  The notebook is a linear sequence of
pandas calls over in-memory tables; each pandas operation the claims touch is
embedded as an executable Lean function over lists:

* a numeric column is a `List (Option ℚ)` (a cell is `none` when the pandas
  value is missing/NaN), or a `List FVal` where the IEEE-754 special values
  produced by numpy division (`nan`, `±inf`) are observable;
* a string column is a `List (Option String)`;
* a keyed table (the APIS survey records, keyed by the integer household id
  `HHID`) is a `List (ℕ × List (Option ℚ))`: the key together with the row's
  remaining cells.

The rational field `ℚ` stands in for the float mantissa: every concrete value
appearing in the claims (1000/2, 2000/4, 3000/3, …) is exactly representable
in binary floating point and the divisions involved are exact, so no rounding
behaviour is abstracted away on the inputs the claims mention.
-/

/-! ### Missing-value utilities -/

/-- A cell of a numeric pandas column: `none` is a missing value (NaN). -/
abbrev Cell := Option ℚ

/-! ### `dropna(subset=[c])` (notebook cells 7 and 28) -/

/-- Embedding of `df.dropna(subset=[c])`: keep exactly the rows whose cell in
column `c` (read off a row by `f`) is present.  Pandas keeps row order. -/
def dropna {ρ α : Type} (f : ρ → Option α) (rows : List ρ) : List ρ :=
  rows.filter (fun r => (f r).isSome)

/-! ### `Series.map(dict)` (notebook cell 18) -/

/-- Association-list lookup, the semantics pandas gives the Python `dict`
passed to `Series.map`: the value stored under the first matching key, or
`none` when the key is absent. -/
def dict_lookup : List (String × ℤ) → String → Option ℤ
  | [], _ => none
  | (k, v) :: ds, s => if k = s then some v else dict_lookup ds s

/-- Embedding of `series.map(d)` for a string column and an int-valued dict:
each present value is looked up (absent keys become missing), and a missing
value stays missing.  No row can raise: the function is total. -/
def series_map (d : List (String × ℤ)) (col : List (Option String)) :
    List (Option ℤ) :=
  col.map (fun v => v.bind (fun s => dict_lookup d s))

/-- The lookup table of notebook cell 18. -/
def embarked_dict : List (String × ℤ) :=
  [("Southampton", 0), ("Cherbourg", 1), ("Queenstown", 2)]

/-! ### Elementwise division (notebook cell 32)

`apis_merged_clean['K5'] / apis_merged_clean['FSIZE']` is numpy float
division.  Its special values matter to the error-handling claims, so the
value domain here is `FVal`: NaN (pandas' missing value for floats), the two
infinities, or a finite number. -/

/-- A float cell as numpy sees it: NaN, `+inf`, `-inf`, or a finite value. -/
inductive FVal : Type
  | nan : FVal
  | pinf : FVal
  | ninf : FVal
  | fin : ℚ → FVal
deriving DecidableEq, Repr

/-- `isnull`/`isna` on a float cell: true exactly on NaN.  The infinities are
not missing values to pandas. -/
def FVal.isna : FVal → Bool
  | .nan => true
  | _ => false

/-- IEEE-754 division as numpy performs it elementwise (signed zeros are not
modelled; the notebook's data never produces a negative zero): a NaN operand
propagates, `±inf / ±inf` and `0 / 0` are NaN, a nonzero or infinite numerator
over zero is a signed infinity, a finite numerator over an infinity is zero,
and the finite/finite case is exact division.  No case raises. -/
def fdiv : FVal → FVal → FVal
  | .nan, _ => .nan
  | _, .nan => .nan
  | .pinf, .pinf => .nan
  | .pinf, .ninf => .nan
  | .ninf, .pinf => .nan
  | .ninf, .ninf => .nan
  | .pinf, .fin b => if b < 0 then .ninf else .pinf
  | .ninf, .fin b => if b < 0 then .pinf else .ninf
  | .fin _, .pinf => .fin 0
  | .fin _, .ninf => .fin 0
  | .fin a, .fin b =>
    if b = 0 then
      (if a = 0 then .nan else if 0 < a then .pinf else .ninf)
    else .fin (a / b)

/-- Embedding of `df[c1] / df[c2]` for two columns of the same frame (pandas
aligns them by the shared index, i.e. positionally): elementwise `fdiv`. -/
def seriesDiv (num den : List FVal) : List FVal :=
  List.zipWith fdiv num den

theorem getD_zipWith {α β γ : Type} (f : α → β → γ) (l₁ : List α)
    (l₂ : List β) (i : ℕ) (d₁ : α) (d₂ : β) (dd : γ)
    (h₁ : i < l₁.length) (h₂ : i < l₂.length) :
    (List.zipWith f l₁ l₂).getD i dd = f (l₁.getD i d₁) (l₂.getD i d₂) := by
  induction l₁ generalizing l₂ i with
  | nil => simp at h₁
  | cons a l₁ ih =>
    cases l₂ with
    | nil => simp at h₂
    | cons b l₂ =>
      cases i with
      | zero => rfl
      | succ i =>
        simp only [List.zipWith_cons_cons, List.getD_cons_succ]
        exact ih l₂ i (Nat.lt_of_succ_lt_succ h₁) (Nat.lt_of_succ_lt_succ h₂)

/-! ### Claim theorems for the cleaner-level column operations -/

/-- C6: after `dropna(subset=[c])`, no surviving row has a missing value in
column `c`. -/
theorem dropna_no_missing {ρ α : Type} (f : ρ → Option α) (rows : List ρ) :
    ∀ r ∈ dropna f rows, (f r).isSome = true := by
  intro r hr
  exact (List.mem_filter.mp hr).2

/-- Witness for `dropna_no_missing` at the concrete column
`[some "S", none, some "C"]` read off a list of rows by identity. -/
theorem dropna_no_missing_witness :
    ((some "C" : Option String) ∈
        dropna (id : Option String → Option String)
          [some "S", none, some "C"]) ∧
      (id (some "C") : Option String).isSome = true := by
  refine ⟨by decide, ?_⟩
  exact dropna_no_missing id [some "S", none, some "C"] (some "C") (by decide)

/-- C7: mapping a string column through a fixed lookup dict yields, rowwise,
the looked-up code when the row's value is a key of the dict, and a missing
value when the row's value is absent from the dict or itself missing; no row
raises. -/
theorem series_map_lookup (d : List (String × ℤ))
    (col : List (Option String)) (i : ℕ) (hi : i < col.length) :
    (∀ s, col.getD i none = some s →
      (series_map d col).getD i none = dict_lookup d s) ∧
    (col.getD i none = none → (series_map d col).getD i none = none) := by
  have hmap : (series_map d col).getD i none =
      (col.getD i none).bind (fun s => dict_lookup d s) := by
    unfold series_map
    rw [List.getD_eq_getElem _ _ (by simpa using hi), List.getElem_map,
      List.getD_eq_getElem _ _ hi]
  constructor
  · intro s hs
    rw [hmap, hs]; rfl
  · intro hs
    rw [hmap, hs]; rfl

/-- Witness for `series_map_lookup` on the notebook's `embarked_dict`: the
value `"Cherbourg"` is a key and maps to code `1`; an absent value such as
`"Manila"` maps to missing. -/
theorem series_map_lookup_witness :
    (series_map embarked_dict [some "Cherbourg", some "Manila"]).getD 0 none
        = some 1 ∧
      (series_map embarked_dict [some "Cherbourg", some "Manila"]).getD 1 none
        = none := by
  constructor
  · have h := (series_map_lookup embarked_dict
      [some "Cherbourg", some "Manila"] 0 (by decide)).1 "Cherbourg" rfl
    rw [h]; decide
  · have h := (series_map_lookup embarked_dict
      [some "Cherbourg", some "Manila"] 1 (by decide)).1 "Manila" rfl
    rw [h]; decide

/-- C8: on `K5 = [1000, 2000, 3000]` and `FSIZE = [2, 4, 3]`, the elementwise
division yields exactly `[500.0, 500.0, 1000.0]` (all three quotients are
exact, so the float result agrees with the rational one). -/
theorem k5_div_fsize_example :
    seriesDiv [.fin 1000, .fin 2000, .fin 3000] [.fin 2, .fin 4, .fin 3]
      = [.fin 500, .fin 500, .fin 1000] := by
  norm_num [seriesDiv, fdiv, List.zipWith]

theorem fdiv_nan_left (b : FVal) : fdiv .nan b = .nan := by
  cases b <;> rfl

theorem fdiv_nan_right (a : FVal) : fdiv a .nan = .nan := by
  cases a <;> rfl

/-- C3 amended: in the elementwise division of column `K5` by column `FSIZE`,
a missing operand propagates to a missing result, and a zero denominator
yields a missing result exactly when the numerator is itself missing or zero;
with a nonzero (or infinite) numerator, a zero denominator yields a signed
infinity, which is not a missing value.  In every case the division is total
(no numeric exception) and a zero denominator never yields a finite value. -/
theorem div_missing_semantics (num den : List FVal) (i : ℕ)
    (h₁ : i < num.length) (h₂ : i < den.length) :
    ((seriesDiv num den).getD i .nan
        = fdiv (num.getD i .nan) (den.getD i .nan)) ∧
      (num.getD i .nan = .nan ∨ den.getD i .nan = .nan →
        (seriesDiv num den).getD i .nan = .nan) ∧
      (den.getD i .nan = .fin 0 →
        ((seriesDiv num den).getD i .nan = .nan ↔
            num.getD i .nan = .nan ∨ num.getD i .nan = .fin 0) ∧
          ∀ q : ℚ, (seriesDiv num den).getD i .nan ≠ .fin q) := by
  have h0 : (seriesDiv num den).getD i .nan
      = fdiv (num.getD i .nan) (den.getD i .nan) :=
    getD_zipWith fdiv num den i .nan .nan .nan h₁ h₂
  refine ⟨h0, ?_, ?_⟩
  · rintro (ha | hb)
    · rw [h0, ha, fdiv_nan_left]
    · rw [h0, hb, fdiv_nan_right]
  · intro hb
    rw [h0, hb]
    cases hn : num.getD i .nan with
    | nan => exact ⟨by simp [fdiv_nan_left], fun q => by simp [fdiv_nan_left]⟩
    | pinf =>
      have : fdiv FVal.pinf (.fin 0) = .pinf := by norm_num [fdiv]
      rw [this]; exact ⟨by simp, fun q => by simp⟩
    | ninf =>
      have : fdiv FVal.ninf (.fin 0) = .ninf := by norm_num [fdiv]
      rw [this]; exact ⟨by simp, fun q => by simp⟩
    | fin a =>
      by_cases ha : a = 0
      · subst ha
        have : fdiv (FVal.fin 0) (.fin 0) = .nan := by norm_num [fdiv]
        rw [this]; exact ⟨by simp, fun q => by simp⟩
      · rcases lt_trichotomy 0 a with hlt | hz | hgt
        · have : fdiv (FVal.fin a) (.fin 0) = .pinf := by
            simp [fdiv, ha, hlt]
          rw [this]; exact ⟨by simp [ha], fun q => by simp⟩
        · exact absurd hz.symm ha
        · have : fdiv (FVal.fin a) (.fin 0) = .ninf := by
            simp [fdiv, ha, not_lt_of_gt hgt]
          rw [this]; exact ⟨by simp [ha], fun q => by simp⟩

/-- The original form of C3 is false on the code: a nonzero numerator over a
zero denominator produces `+inf`, which is a non-missing value (numpy float
division; pandas' `isna` is false on infinities). -/
theorem div_zero_counterexample :
    (seriesDiv [.fin 1000] [.fin 0]).getD 0 .nan = .pinf ∧
      ((seriesDiv [.fin 1000] [.fin 0]).getD 0 .nan).isna = false := by
  have h : seriesDiv [FVal.fin 1000] [FVal.fin 0] = [.pinf] := by
    norm_num [seriesDiv, fdiv, List.zipWith]
  rw [h]; exact ⟨rfl, rfl⟩

/-- Witness for `div_missing_semantics` at the concrete row
`K5 = 1000, FSIZE = 0`. -/
theorem div_missing_semantics_witness :
    (seriesDiv [FVal.fin 1000] [FVal.fin 0]).getD 0 .nan ≠ .fin 500 :=
  ((div_missing_semantics [.fin 1000] [.fin 0] 0 (by decide)
    (by decide)).2.2 rfl).2 500

/-! ### `drop_duplicates(subset='HHID', keep='first')` (notebook cell 25)

Pandas scans the rows in order and keeps a row exactly when its key has not
occurred in an earlier row.  The accumulator `seen` holds the keys of the
rows already kept. -/

def dedupAux {ρ κ : Type} [DecidableEq κ] (key : ρ → κ) (seen : List κ) :
    List ρ → List ρ
  | [] => []
  | r :: rs =>
    if key r ∈ seen then dedupAux key seen rs
    else r :: dedupAux key (key r :: seen) rs

/-- Embedding of `df.drop_duplicates(subset=k, keep='first')`: keep the first
row bearing each key value, in original row order. -/
def drop_duplicates {ρ κ : Type} [DecidableEq κ] (key : ρ → κ)
    (rows : List ρ) : List ρ :=
  dedupAux key [] rows

theorem dedupAux_mem {ρ κ : Type} [DecidableEq κ] (key : ρ → κ) :
    ∀ (l : List ρ) (seen : List κ) (r : ρ), r ∈ dedupAux key seen l →
      r ∈ l ∧ key r ∉ seen := by
  intro l
  induction l with
  | nil => intro seen r hr; simp [dedupAux] at hr
  | cons a l ih =>
    intro seen r hr
    by_cases ha : key a ∈ seen
    · simp only [dedupAux, if_pos ha] at hr
      obtain ⟨h1, h2⟩ := ih seen r hr
      exact ⟨List.mem_cons_of_mem _ h1, h2⟩
    · simp only [dedupAux, if_neg ha] at hr
      rcases List.mem_cons.mp hr with hr | hr
      · exact ⟨by simp [hr], by simp [hr, ha]⟩
      · obtain ⟨h1, h2⟩ := ih _ r hr
        refine ⟨List.mem_cons_of_mem _ h1, fun hc => h2 ?_⟩
        exact List.mem_cons_of_mem _ hc

theorem dedupAux_keys_nodup {ρ κ : Type} [DecidableEq κ] (key : ρ → κ) :
    ∀ (l : List ρ) (seen : List κ),
      ((dedupAux key seen l).map key).Nodup := by
  intro l
  induction l with
  | nil => intro seen; simp [dedupAux]
  | cons a l ih =>
    intro seen
    by_cases ha : key a ∈ seen
    · simpa only [dedupAux, if_pos ha] using ih seen
    · simp only [dedupAux, if_neg ha, List.map_cons, List.nodup_cons]
      refine ⟨fun hc => ?_, ih _⟩
      obtain ⟨r, hr, hkr⟩ := List.mem_map.mp hc
      have := (dedupAux_mem key l _ r hr).2
      exact this (by simp [hkr])

theorem dedupAux_keys_mem {ρ κ : Type} [DecidableEq κ] (key : ρ → κ) :
    ∀ (l : List ρ) (seen : List κ) (k : κ),
      k ∈ (dedupAux key seen l).map key ↔ k ∈ l.map key ∧ k ∉ seen := by
  intro l
  induction l with
  | nil => intro seen k; simp [dedupAux]
  | cons a l ih =>
    intro seen k
    by_cases ha : key a ∈ seen
    · simp only [dedupAux, if_pos ha, List.map_cons, List.mem_cons]
      rw [ih]
      constructor
      · rintro ⟨h1, h2⟩; exact ⟨Or.inr h1, h2⟩
      · rintro ⟨h1 | h1, h2⟩
        · exact absurd (h1 ▸ ha) h2
        · exact ⟨h1, h2⟩
    · simp only [dedupAux, if_neg ha, List.map_cons, List.mem_cons]
      rw [ih]
      constructor
      · rintro (h | ⟨h1, h2⟩)
        · exact ⟨Or.inl h, h ▸ ha⟩
        · exact ⟨Or.inr h1, fun hc => h2 (List.mem_cons_of_mem _ hc)⟩
      · rintro ⟨h1 | h1, h2⟩
        · exact Or.inl h1
        · by_cases hk : k = key a
          · exact Or.inl hk
          · exact Or.inr ⟨h1, by simp [hk, h2]⟩

theorem find?_filter_of_imp {α : Type} (p q : α → Bool) :
    ∀ l : List α, (∀ x, p x = true → q x = true) →
      (l.filter q).find? p = l.find? p := by
  intro l hpq
  induction l with
  | nil => rfl
  | cons a l ih =>
    by_cases hq : q a = true
    · rw [List.filter_cons_of_pos hq]
      by_cases hp : p a = true
      · rw [List.find?_cons_of_pos _ hp, List.find?_cons_of_pos _ hp]
      · rw [List.find?_cons_of_neg _ (by simpa using hp),
          List.find?_cons_of_neg _ (by simpa using hp), ih]
    · have hp : ¬ p a = true := fun hc => hq (hpq a hc)
      rw [List.filter_cons_of_neg (by simpa using hq),
        List.find?_cons_of_neg _ (by simpa using hp), ih]

theorem dedupAux_find? {ρ κ : Type} [DecidableEq κ] (key : ρ → κ) :
    ∀ (l : List ρ) (seen : List κ) (r : ρ), r ∈ dedupAux key seen l →
      l.find? (fun s => decide (key s = key r)) = some r := by
  intro l
  induction l with
  | nil => intro seen r hr; simp [dedupAux] at hr
  | cons a l ih =>
    intro seen r hr
    by_cases ha : key a ∈ seen
    · simp only [dedupAux, if_pos ha] at hr
      have hne : ¬ key a = key r := by
        intro hc
        exact (dedupAux_mem key l seen r hr).2 (hc ▸ ha)
      rw [List.find?_cons_of_neg _ (by simpa using hne)]
      exact ih seen r hr
    · simp only [dedupAux, if_neg ha] at hr
      rcases List.mem_cons.mp hr with hr | hr
      · subst hr
        rw [List.find?_cons_of_pos _ (by simp)]
      · have hne : ¬ key a = key r := by
          intro hc
          exact (dedupAux_mem key l _ r hr).2 (by simp [hc])
        rw [List.find?_cons_of_neg _ (by simpa using hne)]
        exact ih _ r hr

/-- C2: after `drop_duplicates(subset=k, keep='first')`, (i) each key value
occurs at most once among the surviving rows, (ii) exactly the key values of
the original table survive, and (iii) each surviving row is the first row of
the original table bearing its key value. -/
theorem drop_duplicates_spec {ρ κ : Type} [DecidableEq κ] (key : ρ → κ)
    (rows : List ρ) :
    ((drop_duplicates key rows).map key).Nodup ∧
      (∀ k, k ∈ (drop_duplicates key rows).map key ↔ k ∈ rows.map key) ∧
      ∀ r ∈ drop_duplicates key rows,
        rows.find? (fun s => decide (key s = key r)) = some r := by
  refine ⟨dedupAux_keys_nodup key rows [], fun k => ?_, fun r hr => ?_⟩
  · simp only [drop_duplicates]
    rw [dedupAux_keys_mem]; simp
  · exact dedupAux_find? key rows [] r hr

/-- Witness for `drop_duplicates_spec` on a concrete table keyed by the first
component: of the two rows keyed `1`, the first (namely `(1, 10)`) survives. -/
theorem drop_duplicates_spec_witness :
    List.find? (fun s => decide (s.1 = (1, 10).1)) [(1, 10), (1, 20), (2, 30)]
      = some (1, 10) :=
  (drop_duplicates_spec Prod.fst [(1, 10), (1, 20), (2, 30)]).2.2
    (1, 10) (by decide)

/-! ### `merge(on='HHID', how='left')` (notebook cell 26)

A keyed APIS table is a list of rows, each row its integer `HHID` key plus
its remaining cells.  `pd.merge(A, B, on=k, how='left')` emits, for every row
of `A` in order, one output row per matching row of `B` (matching rows taken
in `B`'s order), and a single row padded with missing values when `B` has no
match; unmatched rows of `B` are dropped. -/

/-- A keyed table: each row is its `HHID` key with the row's other cells. -/
abbrev Tbl := List (ℕ × List Cell)

/-- The number of non-key columns of a table, read off its first row (the
notebook's tables are rectangular). -/
def tblWidth (B : Tbl) : ℕ :=
  (B.head?.map (fun r => r.2.length)).getD 0

/-- Embedding of `A.merge(B, on='HHID', how='left')`. -/
def merge_left (A B : Tbl) : Tbl :=
  A.flatMap (fun r =>
    match B.filter (fun b => decide (b.1 = r.1)) with
    | [] => [(r.1, r.2 ++ List.replicate (tblWidth B) none)]
    | ms => ms.map (fun b => (r.1, r.2 ++ b.2)))

/-- Embedding of `df.drop(columns=[c])` for a keyed table, `c` sitting at
position `i` of the non-key cells (cell 26 drops the duplicated region column
`REG` from each table before joining). -/
def drop_col (i : ℕ) (B : Tbl) : Tbl :=
  B.map (fun r => (r.1, r.2.eraseIdx i))

theorem filter_key_length_le_one {ρ κ : Type} [DecidableEq κ] (f : ρ → κ)
    (k : κ) : ∀ l : List ρ, (l.map f).Nodup →
      (l.filter (fun x => decide (f x = k))).length ≤ 1 := by
  intro l
  induction l with
  | nil => intro _; simp
  | cons a l ih =>
    intro hnd
    rw [List.map_cons, List.nodup_cons] at hnd
    by_cases ha : f a = k
    · rw [List.filter_cons_of_pos (by simpa using ha)]
      have : l.filter (fun x => decide (f x = k)) = [] := by
        rw [List.filter_eq_nil_iff]
        intro x hx hc
        exact hnd.1 (List.mem_map.mpr ⟨x, hx, by
          have := of_decide_eq_true hc
          rw [this, ha]⟩)
      simp [this]
    · rw [List.filter_cons_of_neg (by simpa using ha)]
      exact ih hnd.2

theorem merge_left_keys (A B : Tbl) (hB : (B.map Prod.fst).Nodup) :
    (merge_left A B).map Prod.fst = A.map Prod.fst := by
  induction A with
  | nil => rfl
  | cons r A ih =>
    have hbind : merge_left (r :: A) B =
        (match B.filter (fun b => decide (b.1 = r.1)) with
          | [] => [(r.1, r.2 ++ List.replicate (tblWidth B) none)]
          | ms => ms.map (fun b => (r.1, r.2 ++ b.2))) ++ merge_left A B := by
      simp [merge_left]
    rw [hbind, List.map_append, ih]
    rcases hf : B.filter (fun b => decide (b.1 = r.1)) with _ | ⟨b, ms⟩
    · rw [hf]; rfl
    · have hlen : (B.filter (fun b => decide (b.1 = r.1))).length ≤ 1 :=
        filter_key_length_le_one Prod.fst r.1 B hB
      rw [hf] at hlen
      cases ms with
      | nil => rw [hf]; rfl
      | cons b' ms' => simp at hlen

/-- C1 as stated ("regardless of the contents of B") is false on the code:
`pd.merge(..., how='left')` emits one row per matching pair, so a left table
with one row joined to a right table holding two rows with that key yields
two rows, not one. -/
theorem merge_left_count_counterexample :
    (merge_left [(0, [])] [(0, [some 1]), (0, [some 2])]).length = 2 ∧
      ([((0 : ℕ), ([] : List Cell))]).length = 1 := by
  constructor <;> rfl

/-- C1 amended: a left join of `A` (n rows) with `B` on the key yields
exactly n rows provided each key value occurs at most once in `B` — which
cell 25 of the notebook establishes for every joined table by deduplicating
it on `HHID` first. -/
theorem merge_left_count (A B : Tbl) (hB : (B.map Prod.fst).Nodup) :
    (merge_left A B).length = A.length := by
  have h := congrArg List.length (merge_left_keys A B hB)
  simpa using h

/-- Witness for `merge_left_count`: a two-row base joined to a one-row table
with duplicate-free keys keeps exactly its two rows. -/
theorem merge_left_count_witness :
    ((([(5, [some 1]), (7, [])] : Tbl)).map Prod.fst).Nodup ∧
      (merge_left [(5, [some 1]), (7, [])] [(5, [some 2])]).length = 2 :=
  ⟨by decide, merge_left_count [(5, [some 1]), (7, [])] [(5, [some 2])]
    (by decide)⟩

/-! ### The notebook's merge pipeline (cells 25 and 26)

Cell 25 deduplicates every APIS table — the base household record included —
on `HHID`, keeping the first row per key; cell 26 then folds over the other
tables, dropping each one's `REG` column and left-joining it onto the
accumulating base.  Each non-base table comes with the position of its `REG`
column among its non-key cells. -/

/-- Embedding of cells 25–26: deduplicate the base and every other table on
the key, drop each other table's `REG` column, and left-join them in turn
onto the accumulating base. -/
def merge_pipeline (base : Tbl) (others : List (Tbl × ℕ)) : Tbl :=
  others.foldl
    (fun acc t => merge_left acc (drop_col t.2 (drop_duplicates Prod.fst t.1)))
    (drop_duplicates Prod.fst base)

theorem drop_col_keys (i : ℕ) (B : Tbl) :
    (drop_col i B).map Prod.fst = B.map Prod.fst := by
  simp [drop_col]

theorem merge_pipeline_keys (base : Tbl) (others : List (Tbl × ℕ)) :
    (merge_pipeline base others).map Prod.fst
      = (drop_duplicates Prod.fst base).map Prod.fst := by
  suffices h : ∀ (os : List (Tbl × ℕ)) (acc : Tbl),
      (os.foldl (fun acc t =>
        merge_left acc (drop_col t.2 (drop_duplicates Prod.fst t.1))) acc).map
          Prod.fst = acc.map Prod.fst by
    exact h others _
  intro os
  induction os with
  | nil => intro acc; rfl
  | cons t os ih =>
    intro acc
    rw [List.foldl_cons, ih]
    apply merge_left_keys
    rw [drop_col_keys]
    exact dedupAux_keys_nodup Prod.fst t.1 []

/-- C9: after the full pipeline — every table deduplicated on `HHID` keeping
the first row, then each non-base table left-joined onto the base on `HHID` —
the merged table's keys are duplicate-free (every `HHID` appears exactly
once) and its row count equals the deduplicated base table's row count. -/
theorem merge_pipeline_spec (base : Tbl) (others : List (Tbl × ℕ)) :
    ((merge_pipeline base others).map Prod.fst).Nodup ∧
      (merge_pipeline base others).length
        = (drop_duplicates Prod.fst base).length := by
  constructor
  · rw [merge_pipeline_keys]
    exact dedupAux_keys_nodup Prod.fst base []
  · have h := congrArg List.length (merge_pipeline_keys base others)
    simpa using h

/-! ### `pd.get_dummies(..., columns=['sex'], drop_first=True)` (cell 10)

For an object-dtype column, pandas takes the distinct present values in
sorted order as the categories, drops the first, and emits one 0/1 indicator
column per remaining category; a missing value belongs to no category and
gets 0 in every indicator column. -/

/-- Lexicographic comparison of two character lists by code point, the order
Python's `sorted` uses on strings. -/
def charsLt : List Char → List Char → Bool
  | [], [] => false
  | [], _ :: _ => true
  | _ :: _, [] => false
  | c :: cs, d :: ds =>
    if c.val.toNat < d.val.toNat then true
    else if d.val.toNat < c.val.toNat then false
    else charsLt cs ds

/-- Lexicographic string comparison by code point. -/
def strLt (x y : String) : Bool := charsLt x.data y.data

/-- Insert a string into a sorted duplicate-free list, keeping it sorted and
duplicate-free. -/
def insertUnique (x : String) : List String → List String
  | [] => [x]
  | y :: ys =>
    if x = y then y :: ys
    else if strLt x y then x :: y :: ys
    else y :: insertUnique x ys

/-- The categories pandas assigns an object column: its distinct present
values in sorted order. -/
def categories (col : List (Option String)) : List String :=
  (col.filterMap id).foldr insertUnique []

/-- Embedding of `pd.get_dummies(df, columns=[c], drop_first=True)` restricted
to the indicator columns it creates: one named 0/1 column per category after
the first. -/
def get_dummies_drop_first (col : List (Option String)) :
    List (String × List ℕ) :=
  ((categories col).drop 1).map
    (fun c => (c, col.map (fun v => if v = some c then 1 else 0)))

/-- C4: when the column has exactly two categories, dropping the first yields
exactly one indicator column; it is named after the non-dropped (second)
category and holds 1 exactly on the rows taking that category and 0 on every
other row. -/
theorem get_dummies_two_categories (col : List (Option String))
    (h : (categories col).length = 2) :
    (get_dummies_drop_first col).length = 1 ∧
      ∀ p ∈ get_dummies_drop_first col,
        p.1 = (categories col).getD 1 "" ∧
          ∀ i, i < col.length →
            (col.getD i none = some p.1 → p.2.getD i 2 = 1) ∧
            (col.getD i none ≠ some p.1 → p.2.getD i 2 = 0) := by
  obtain ⟨a, b, hab⟩ := List.length_eq_two.mp h
  have hdum : get_dummies_drop_first col
      = [(b, col.map (fun v => if v = some b then 1 else 0))] := by
    rw [get_dummies_drop_first, hab]
    rfl
  constructor
  · rw [hdum]; rfl
  · intro p hp
    rw [hdum, List.mem_singleton] at hp
    subst hp
    dsimp only
    refine ⟨by rw [hab]; rfl, fun i hi => ?_⟩
    have hget : (col.map
        (fun v => if v = some b then (1 : ℕ) else 0)).getD i 2
        = if col.getD i none = some b then 1 else 0 := by
      rw [List.getD_eq_getElem _ _ (by simpa using hi), List.getElem_map,
        List.getD_eq_getElem _ _ hi]
    constructor
    · intro hv
      rw [hget, if_pos hv]
    · intro hv
      rw [hget, if_neg hv]

/-- Witness for `get_dummies_two_categories` on the column
`[male, female, none, male]`: the categories are `[female, male]` (sorted),
`female` is dropped, and the single indicator column flags the `male` rows. -/
theorem get_dummies_two_categories_witness :
    ((get_dummies_drop_first
        [some "male", some "female", none, some "male"]).length = 1) ∧
      ∀ p ∈ get_dummies_drop_first
          [some "male", some "female", none, some "male"],
        p.1 = (categories
            [some "male", some "female", none, some "male"]).getD 1 "" ∧
          ∀ i, i < ([some "male", some "female", none,
              some "male"] : List (Option String)).length →
            (([some "male", some "female", none, some "male"] :
                List (Option String)).getD i none = some p.1 →
              p.2.getD i 2 = 1) ∧
            (([some "male", some "female", none, some "male"] :
                List (Option String)).getD i none ≠ some p.1 →
              p.2.getD i 2 = 0) :=
  get_dummies_two_categories [some "male", some "female", none, some "male"]
    (by decide)

/-! ### Quantile threshold filtering (cells 38 and 39)

Cell 38 keeps the rows whose `hh_income_pc` strictly exceeds the column's own
0.99-quantile; cell 39 keeps the rows at or below it.  Pandas' `quantile`
ignores missing values and interpolates linearly between the order statistics
(numpy's default); comparing a missing value against the threshold is false
for both `>` and `<=`, so missing rows land in neither subset. -/

/-- Insert a rational into a sorted list, keeping it sorted. -/
def insertSorted (x : ℚ) : List ℚ → List ℚ
  | [] => [x]
  | y :: ys => if x ≤ y then x :: y :: ys else y :: insertSorted x ys

/-- Sort a list of rationals ascending (insertion sort). -/
def sortQ (l : List ℚ) : List ℚ := l.foldr insertSorted []

/-- Embedding of `series.quantile(p)`: drop the missing values, sort, and
interpolate linearly at position `p * (n - 1)` (numpy's default `linear`
interpolation); an all-missing column has no quantile (pandas returns NaN). -/
def quantile (col : List (Option ℚ)) (p : ℚ) : Option ℚ :=
  match sortQ (col.filterMap id) with
  | [] => none
  | x :: xs =>
    let s := x :: xs
    let h : ℚ := p * ((s.length : ℚ) - 1)
    let i : ℕ := ⌊h⌋.toNat
    let a := s.getD i 0
    let b := s.getD (i + 1) a
    some (a + (b - a) * (h - (i : ℚ)))

/-- Pandas comparison `v > t` on float cells: false whenever either side is
missing. -/
def optGt (v t : Option ℚ) : Bool :=
  match v, t with
  | some a, some b => decide (b < a)
  | _, _ => false

/-- Pandas comparison `v <= t` on float cells: false whenever either side is
missing. -/
def optLe (v t : Option ℚ) : Bool :=
  match v, t with
  | some a, some b => decide (a ≤ b)
  | _, _ => false

/-- Embedding of cell 38, `df[df[c] > t]`: the rows whose cell in the column
(read off by `f`) strictly exceeds the threshold. -/
def filter_above {ρ : Type} (f : ρ → Option ℚ) (t : Option ℚ)
    (rows : List ρ) : List ρ :=
  rows.filter (fun r => optGt (f r) t)

/-- Embedding of cell 39, `df[df[c] <= t]`: the rows whose cell in the column
is at or below the threshold. -/
def filter_at_or_below {ρ : Type} (f : ρ → Option ℚ) (t : Option ℚ)
    (rows : List ρ) : List ρ :=
  rows.filter (fun r => optLe (f r) t)

theorem insertSorted_ne_nil (x : ℚ) (l : List ℚ) : insertSorted x l ≠ [] := by
  cases l with
  | nil => simp [insertSorted]
  | cons y ys =>
    rw [insertSorted]
    split <;> simp

theorem sortQ_eq_nil_iff (l : List ℚ) : sortQ l = [] ↔ l = [] := by
  cases l with
  | nil => simp [sortQ]
  | cons x xs =>
    simp only [sortQ, List.foldr_cons]
    exact ⟨fun h => absurd h (insertSorted_ne_nil x _), fun h => by simp at h⟩

theorem optGt_optLe_exclusive (v t : Option ℚ) (h : optGt v t = true) :
    optLe v t = false := by
  cases v with
  | none => simp [optGt] at h
  | some a =>
    cases t with
    | none => simp [optGt] at h
    | some b =>
      simp only [optGt, decide_eq_true_eq] at h
      simp [optLe, not_le_of_lt h]

theorem countP_partition {ρ : Type} (f : ρ → Option ℚ) (q : ℚ) :
    ∀ rows : List ρ,
      rows.countP (fun r => optGt (f r) (some q)) +
          rows.countP (fun r => optLe (f r) (some q)) +
          rows.countP (fun r => (f r).isNone)
        = rows.length := by
  intro rows
  induction rows with
  | nil => rfl
  | cons r rs ihr =>
    rw [List.countP_cons, List.countP_cons, List.countP_cons, List.length_cons]
    cases hv : f r with
    | none =>
      have hg : optGt (none : Option ℚ) (some q) = false := rfl
      have hl : optLe (none : Option ℚ) (some q) = false := rfl
      simp only [hg, hl, Option.isNone_none]
      norm_num
      omega
    | some a =>
      rcases le_or_lt a q with hle | hlt
      · have hg : optGt (some a) (some q) = false := by
          simp [optGt, not_lt_of_le hle]
        have hl : optLe (some a) (some q) = true := by simp [optLe, hle]
        simp only [hg, hl, Option.isNone_some]
        norm_num
        omega
      · have hg : optGt (some a) (some q) = true := by simp [optGt, hlt]
        have hl : optLe (some a) (some q) = false := by
          simp [optLe, not_le_of_lt hlt]
        simp only [hg, hl, Option.isNone_some]
        norm_num
        omega

theorem quantile_none_all_missing {ρ : Type} (f : ρ → Option ℚ) (p : ℚ)
    (rows : List ρ) (h : quantile (rows.map f) p = none) :
    ∀ r ∈ rows, f r = none := by
  intro r hr
  unfold quantile at h
  rcases hq : sortQ ((rows.map f).filterMap id) with _ | ⟨x, xs⟩
  · have hnil : (rows.map f).filterMap id = [] := (sortQ_eq_nil_iff _).mp hq
    have := List.filterMap_eq_nil_iff.mp hnil (f r)
      (List.mem_map.mpr ⟨r, hr, rfl⟩)
    simpa using this
  · rw [hq] at h
    simp at h

/-- C5: with `t` the column's own 0.99-quantile, the strictly-above subset
and the at-or-below subset are disjoint (a cell value passing the first
comparison fails the second), and their row counts sum to the original row count minus the
number of rows missing in that column — those rows join neither subset. -/
theorem quantile_partition {ρ : Type} (f : ρ → Option ℚ) (rows : List ρ) :
    (∀ v : Option ℚ,
      optGt v (quantile (rows.map f) (99 / 100)) = true →
        optLe v (quantile (rows.map f) (99 / 100)) = false) ∧
      (filter_above f (quantile (rows.map f) (99 / 100)) rows).length +
          (filter_at_or_below f (quantile (rows.map f) (99 / 100))
            rows).length
        = rows.length - (rows.map f).countP (fun v => v.isNone) := by
  refine ⟨fun v => optGt_optLe_exclusive v _, ?_⟩

  rw [filter_above, filter_at_or_below, ← List.countP_eq_length_filter,
    ← List.countP_eq_length_filter, List.countP_map]
  rcases htv : quantile (rows.map f) (99 / 100) with _ | q
  · have hall := quantile_none_all_missing f (99 / 100) rows htv
    have h1 : rows.countP (fun r => optGt (f r) none) = 0 := by
      rw [List.countP_eq_zero]
      intro r _
      simp [optGt]
    have h2 : rows.countP (fun r => optLe (f r) none) = 0 := by
      rw [List.countP_eq_zero]
      intro r _
      simp [optLe]
    have h3 : rows.countP ((fun v => v.isNone) ∘ f) = rows.length := by
      rw [List.countP_eq_length]
      intro r hr
      simp [Function.comp, hall r hr]
    rw [h1, h2, h3]
    simp
  · have hpart := countP_partition f q rows
    have hcomp : rows.countP ((fun v => v.isNone) ∘ f)
        = rows.countP (fun r => (f r).isNone) := by
      rfl
    rw [hcomp]
    omega

/-! ### `age.interpolate()` (notebook cell 8)

`Series.interpolate()` with the default `linear` method treats the values as
equally spaced, fills each interior gap by linear interpolation between the
nearest present neighbours, forward-fills after the last present value, and
leaves leading missing entries missing. -/

/-- The last present value at a position strictly before `i`, with its
position. -/
def lastKnownBefore (l : List (Option ℚ)) (i : ℕ) : Option (ℕ × ℚ) :=
  ((l.take i).enum.filterMap (fun p => p.2.map (fun q => (p.1, q)))).getLast?

/-- The first present value at a position strictly after `i`, with its
position. -/
def firstKnownAfter (l : List (Option ℚ)) (i : ℕ) : Option (ℕ × ℚ) :=
  ((l.enum.drop (i + 1)).filterMap (fun p => p.2.map (fun q => (p.1, q)))).head?

/-- The interpolated value at position `i`: a present value is kept; a gap
between two present neighbours is filled linearly by position; a gap after
the last present value is forward-filled; a gap before the first present
value stays missing. -/
def interpAt (l : List (Option ℚ)) (i : ℕ) : Option ℚ :=
  match l.getD i none with
  | some q => some q
  | none =>
    match lastKnownBefore l i, firstKnownAfter l i with
    | some jq, some kq =>
      some (jq.2 + (kq.2 - jq.2) * ((i : ℚ) - (jq.1 : ℚ))
        / ((kq.1 : ℚ) - (jq.1 : ℚ)))
    | some jq, none => some jq.2
    | none, _ => none

/-- Embedding of `series.interpolate()` (default linear method). -/
def interpolate (l : List (Option ℚ)) : List (Option ℚ) :=
  (List.range l.length).map (interpAt l)

/-- The dataframe columns touched by notebook cell 8: the original `age`
column and the new `age_intfill` column. -/
structure AgeColumns where
  age : List (Option ℚ)
  age_intfill : List (Option ℚ)

/-- Embedding of `df_clean['age_intfill'] = df_clean['age'].interpolate()`:
a new column is created from the interpolation and the `age` column is passed
through untouched. -/
def add_age_intfill (age : List (Option ℚ)) : AgeColumns :=
  { age := age, age_intfill := interpolate age }

/-- C10: the interpolation step leaves the original `age` column unchanged,
and wherever `age` is present the new `age_intfill` column carries the very
same value — interpolation only fills gaps. -/
theorem add_age_intfill_spec (a : List (Option ℚ)) :
    (add_age_intfill a).age = a ∧
      ∀ i q, a.getD i none = some q →
        (add_age_intfill a).age_intfill.getD i none = some q := by
  refine ⟨rfl, fun i q hq => ?_⟩
  have hi : i < a.length := by
    by_contra hge
    rw [List.getD_eq_default _ _ (Nat.le_of_not_lt hge)] at hq
    exact Option.noConfusion hq
  have hget : (add_age_intfill a).age_intfill.getD i none = interpAt a i := by
    show (interpolate a).getD i none = interpAt a i
    rw [interpolate,
      List.getD_eq_getElem _ _ (by simpa using hi), List.getElem_map,
      List.getElem_range]
  rw [hget, interpAt, hq]

/-- Witness for `add_age_intfill_spec` on the column `[22, none, 38]`: the
present value 22 at position 0 is carried over unchanged. -/
theorem add_age_intfill_spec_witness :
    (add_age_intfill [some 22, none, some 38]).age_intfill.getD 0 none
      = some 22 :=
  (add_age_intfill_spec [some 22, none, some 38]).2 0 22 rfl

/-- Witness for `quantile_partition` on the column `[1, 100, missing]`: its
0.99-quantile is 99.01, the value 200 is strictly above it and hence not at
or below it, and the two subsets (one row each) total the three rows minus
the one missing row. -/
theorem quantile_partition_witness :
    optLe (some 200)
        (quantile ([some 1, some 100, none].map (id : Option ℚ → Option ℚ))
          (99 / 100)) = false ∧
      (filter_above (id : Option ℚ → Option ℚ)
            (quantile ([some 1, some 100, none].map id) (99 / 100))
            [some 1, some 100, none]).length +
          (filter_at_or_below (id : Option ℚ → Option ℚ)
            (quantile ([some 1, some 100, none].map id) (99 / 100))
            [some 1, some 100, none]).length
        = ([some 1, some 100, none] : List (Option ℚ)).length
            - ([some 1, some 100, none].map
                (id : Option ℚ → Option ℚ)).countP (fun v => v.isNone) := by
  refine ⟨(quantile_partition id [some 1, some 100, none]).1 (some 200) ?_,
    (quantile_partition id [some 1, some 100, none]).2⟩
  have hq : quantile
      ([some 1, some 100, none].map (id : Option ℚ → Option ℚ)) (99 / 100)
      = some (9901 / 100) := by
    have hs : sortQ (([some 1, some 100, none].map
        (id : Option ℚ → Option ℚ)).filterMap id) = [1, 100] := by
      norm_num [sortQ, insertSorted, List.filterMap_cons]
    rw [quantile, hs]
    norm_num
  rw [hq]
  norm_num [optGt]
